import Mathlib

/-!
Verification of the posting-date and calendar-alignment engine of the
Gargle Post Planner repository.

Dates are modelled the way the TypeScript code uses them: every `Date`
value in the scheduling core is normalized to local midnight, so a date is
represented by its day count from the epoch 1970-01-01 (proleptic
Gregorian calendar, no daylight-saving anomalies at midnight, and the
legacy two-digit-year remapping of the `Date` constructor is outside the
model).  Day arithmetic such as `d.setDate(d.getDate() + k)` is then
plain integer addition, and `getTime()` comparisons of midnight dates
coincide with comparisons of day numbers.
-/

namespace GPP

/-- JavaScript remainder `a % b` (truncated, sign of the dividend) for a
positive modulus `b`, expressed through the Euclidean `%` of `Int`. -/
def jsMod (a b : Int) : Int := if 0 ≤ a then a % b else -((-a) % b)

/-- Day count from 1970-01-01 of the civil date `(y, m, d)` with a 1-based
month, by the standard civil-from-days conversion; `d` may lie outside the
month and shifts the result linearly, matching the rollover behaviour of
the JavaScript `Date` constructor for out-of-range day arguments. -/
def daysFromCivil (y m d : Int) : Int :=
  let y2 := if m ≤ 2 then y - 1 else y
  let era := y2 / 400
  let yoe := y2 - era * 400
  let mp := (m + 9) % 12
  let doy := (153 * mp + 2) / 5 + d - 1
  let doe := yoe * 365 + yoe / 4 - yoe / 100 + doy
  era * 146097 + doe - 719468

/-- Decomposition of a day-of-era (0 to 146096) into year-of-era, month
and day, the inner step of the civil-from-days conversion. -/
def doeParts (doe : Int) : Int × Int × Int :=
  let yoe := (doe - doe / 1460 + doe / 36524 - doe / 146096) / 365
  let doy := doe - (365 * yoe + yoe / 4 - yoe / 100)
  let mp := (5 * doy + 2) / 153
  let d := doy - (153 * mp + 2) / 5 + 1
  let m := if mp < 10 then mp + 3 else mp - 9
  (yoe, m, d)

/-- Civil date `(year, month 1-based, day)` of a day count, the inverse of
`daysFromCivil` on valid dates. -/
def civilFromDays (z : Int) : Int × Int × Int :=
  let z2 := z + 719468
  let era := z2 / 146097
  let doe := z2 - era * 146097
  let p := doeParts doe
  let y := p.1 + era * 400
  (if p.2.1 ≤ 2 then y + 1 else y, p.2.1, p.2.2)

/-- JavaScript `new Date(year, monthIndex, day)` at local midnight:
`monthIndex` is 0-based and overflows into adjacent years. -/
def mkDate (year monthIndex day : Int) : Int :=
  daysFromCivil (year + monthIndex / 12) (monthIndex % 12 + 1) day

/-- JavaScript `getDay()`: day of week, Sunday = 0; 1970-01-01 was a
Thursday. -/
def getDay (t : Int) : Int := (t + 4) % 7

/-- JavaScript `getDate()`: 1-based day of month. -/
def getDate (t : Int) : Int := (civilFromDays t).2.2

/-- JavaScript `getFullYear()`. -/
def getFullYear (t : Int) : Int := (civilFromDays t).1

/-- Sanity: the epoch converts to 1970-01-01 and back. -/
example : daysFromCivil 1970 1 1 = 0 := by decide

example : civilFromDays 0 = (1970, 1, 1) := by decide

example : mkDate 2024 11 25 = daysFromCivil 2024 12 25 := by decide

/-- Sanity: 2024-12-25 was a Wednesday. -/
example : getDay (daysFromCivil 2024 12 25) = 3 := by decide

/-! ### src/utils/dateUtils.ts -/

/-- The two weekday-pair configurations of the planner. -/
inductive PostSched
  | MW
  | TTH
deriving DecidableEq

/-- Line `const targetDays = postSchedule === 'MW' ? [1, 3] : [2, 4]`. -/
def targetDays : PostSched → Int × Int
  | .MW => (1, 3)
  | .TTH => (2, 4)

/-- Function `calculatePostDate` of src/utils/dateUtils.ts: the start date
is the day number of the parsed `startDateString` at local midnight. -/
def calculatePostDate (startDate : Int) (weekIndex : Nat) (postIndex : Fin 2)
    (postSchedule : PostSched) : Int :=
  let dayForThisPost :=
    if postIndex = 0 then (targetDays postSchedule).1 else (targetDays postSchedule).2
  let startDayOfWeek := getDay startDate
  let daysUntilFirstMonday := (1 - startDayOfWeek + 7) % 7
  let firstMonday := startDate + daysUntilFirstMonday
  let postDate := firstMonday + (weekIndex : Int) * 7
  postDate + (dayForThisPost - 1)

/-- First occurrence of weekday `w` on or after day `t`. -/
def firstOnOrAfter (t w : Int) : Int := t + (w - getDay t + 7) % 7

theorem firstOnOrAfter_ge (t w : Int) : t ≤ firstOnOrAfter t w := by
  unfold firstOnOrAfter getDay
  omega

theorem getDay_firstOnOrAfter (t w : Int) (hw : 0 ≤ w) (hw7 : w < 7) :
    getDay (firstOnOrAfter t w) = w := by
  unfold firstOnOrAfter getDay
  omega

theorem firstOnOrAfter_min (t w u : Int) (ht : t ≤ u) (hu : getDay u = w) :
    firstOnOrAfter t w ≤ u := by
  unfold firstOnOrAfter getDay at *
  omega

/-- Closed form of a posting slot: the Monday anchor plus whole weeks plus
the fixed intra-week offset. -/
theorem calculatePostDate_eq (startDate : Int) (weekIndex : Nat) (postIndex : Fin 2)
    (s : PostSched) :
    calculatePostDate startDate weekIndex postIndex s =
      firstOnOrAfter startDate 1 + (weekIndex : Int) * 7 +
        ((if postIndex = 0 then (targetDays s).1 else (targetDays s).2) - 1) := by
  unfold calculatePostDate firstOnOrAfter
  ring

/-- Claim C2 counterexample: for the Tuesday/Thursday pair with the start
date 2024-12-24, itself a Tuesday, the week-1 first slot computed by
`calculatePostDate` is 2024-12-31, seven days past the earliest Tuesday on
or after the start date, which is the start date itself.  The function
anchors on the first Monday on or after the start date, so a Tuesday start
skips the on-start Tuesday. -/
theorem calculatePostDate_skips_tuesday_start :
    getDay (daysFromCivil 2024 12 24) = 2 ∧
    firstOnOrAfter (daysFromCivil 2024 12 24) 2 = daysFromCivil 2024 12 24 ∧
    calculatePostDate (daysFromCivil 2024 12 24) 0 0 .TTH =
      daysFromCivil 2024 12 24 + 7 := by
  refine ⟨by decide, by decide, by decide⟩

/-- Claim C2 (amended): `calculatePostDate` anchors week 1 on the first
Monday on or after the start date and derives every slot from that anchor
by whole-week increments plus the fixed intra-week offset.  For the
Monday/Wednesday pair the week-1 first slot is always the earliest Monday
on or after the start date; for the Tuesday/Thursday pair it is the
earliest Tuesday on or after the start date except when the start date is
itself a Tuesday, in which case the slot falls seven days later.  The
week-1 first slot never falls before the start date. -/
theorem calculatePostDate_anchor :
    (∀ t : Int, calculatePostDate t 0 0 .MW = firstOnOrAfter t 1) ∧
    (∀ t : Int, getDay t ≠ 2 →
      calculatePostDate t 0 0 .TTH = firstOnOrAfter t 2) ∧
    (∀ t : Int, getDay t = 2 →
      calculatePostDate t 0 0 .TTH = firstOnOrAfter t 2 + 7) ∧
    (∀ (t : Int) (s : PostSched), t ≤ calculatePostDate t 0 0 s) ∧
    (∀ (t : Int) (s : PostSched) (w : Nat) (i : Fin 2),
      calculatePostDate t w i s =
        calculatePostDate t 0 0 s + (w : Int) * 7 +
          (if i = 0 then 0 else (targetDays s).2 - (targetDays s).1)) := by
  refine ⟨?_, ?_, ?_, ?_, ?_⟩
  · intro t
    norm_num [calculatePostDate, firstOnOrAfter, getDay, targetDays]
  · intro t h
    unfold getDay at h
    norm_num [calculatePostDate, firstOnOrAfter, getDay, targetDays]
    omega
  · intro t h
    unfold getDay at h
    norm_num [calculatePostDate, firstOnOrAfter, getDay, targetDays]
    omega
  · intro t s
    have := calculatePostDate_eq t 0 0 s
    have h1 := firstOnOrAfter_ge t 1
    cases s <;> simp [targetDays] at this <;> omega
  · intro t s w i
    rw [calculatePostDate_eq, calculatePostDate_eq]
    rcases i with ⟨iv, hi⟩
    interval_cases iv <;> cases s <;> simp [targetDays] <;> ring

/-- Witness for `calculatePostDate_anchor`: the Tuesday/Thursday clause at
the concrete Thursday start 2024-12-26. -/
theorem calculatePostDate_anchor_witness :
    calculatePostDate (daysFromCivil 2024 12 26) 0 0 .TTH =
      firstOnOrAfter (daysFromCivil 2024 12 26) 2 :=
  calculatePostDate_anchor.2.1 (daysFromCivil 2024 12 26) (by decide)

/-! ### src/services/geminiService.ts, calculatePostingDates (lines 680-706) -/

/-- One entry of the week-indexed schedule: the 1-based week number and its
two slot dates (display and iso strings both denote the same calendar day,
kept here once as a day number). -/
structure WeekDates where
  week : Int
  dates : List Int
deriving DecidableEq, Repr

/-- JavaScript `.sort((a, b) => a.timestamp - b.timestamp)` on the
two-element array of week dates: a stable sort by day number. -/
def sortPair (a b : Int) : List Int := if b < a then [b, a] else [a, b]

/-- Loop body of `calculatePostingDates`: the entry pushed for `week`. -/
def weekEntry (startDate : Int) (postSchedule : PostSched) (week : Nat) : WeekDates :=
  { week := (week : Int) + 1
    dates := sortPair (calculatePostDate startDate week 0 postSchedule)
                      (calculatePostDate startDate week 1 postSchedule) }

/-- Function `calculatePostingDates` of src/services/geminiService.ts:
for each week below `numWeeks` it maps the two post indexes through
`calculatePostDate`, sorts the pair chronologically, and records the
1-based week number. -/
def calculatePostingDates (startDate : Int) (postSchedule : PostSched)
    (numWeeks : Int) : List WeekDates :=
  (List.range numWeeks.toNat).map (weekEntry startDate postSchedule)

/-! ### src/services/geminiService.ts, rawPostingSlots / allPostingSlots
  (lines 733-749) -/

/-- One flattened posting slot before global ordering. -/
structure RawSlot where
  week : Int
  postIndex : Nat
  dateObj : Int
deriving DecidableEq, Repr

/-- The flatMap of lines 733-741: every week contributes its sorted dates,
tagged with the in-week index. -/
def rawPostingSlots (postingDates : List WeekDates) : List RawSlot :=
  postingDates.flatMap fun wd =>
    wd.dates.mapIdx fun index date =>
      { week := wd.week, postIndex := index, dateObj := date }

/-- One posting slot with its final 1-based chronological sequence. -/
structure SeqSlot where
  week : Int
  postIndex : Nat
  dateObj : Int
  sequence : Int
deriving DecidableEq, Repr

/-- Lines 743-749: the raw slots sorted by date (JavaScript sort with the
comparator on `getTime`, a stable sort) and numbered `index + 1`. -/
def allPostingSlots (postingDates : List WeekDates) : List SeqSlot :=
  (((rawPostingSlots postingDates).mergeSort
      fun a b => decide (a.dateObj ≤ b.dateObj)).mapIdx
    fun index s =>
      { week := s.week, postIndex := s.postIndex, dateObj := s.dateObj
        sequence := (index : Int) + 1 })

theorem calculatePostDate_step (t : Int) (s : PostSched) (w : Nat) :
    calculatePostDate t w 1 s = calculatePostDate t w 0 s + 2 := by
  rw [calculatePostDate_eq, calculatePostDate_eq]
  cases s <;> simp [targetDays] <;> omega

theorem weekEntry_dates (t : Int) (s : PostSched) (w : Nat) :
    (weekEntry t s w).dates =
      [calculatePostDate t w 0 s, calculatePostDate t w 1 s] := by
  have h := calculatePostDate_step t s w
  simp only [weekEntry, sortPair]
  rw [if_neg (by omega)]

theorem calculatePostDate_bounds (t : Int) (s : PostSched) (w : Nat) (i : Fin 2) :
    firstOnOrAfter t 1 + 7 * (w : Int) ≤ calculatePostDate t w i s ∧
      calculatePostDate t w i s ≤ firstOnOrAfter t 1 + 7 * (w : Int) + 3 := by
  rw [calculatePostDate_eq]
  rcases i with ⟨iv, hi⟩
  interval_cases iv <;> cases s <;> simp [targetDays] <;> omega

theorem getDay_calculatePostDate (t : Int) (s : PostSched) (w : Nat) (i : Fin 2) :
    getDay (calculatePostDate t w i s) =
      (if i = 0 then (targetDays s).1 else (targetDays s).2) := by
  rcases i with ⟨iv, hi⟩
  interval_cases iv <;> cases s <;>
    simp [calculatePostDate, getDay, targetDays, firstOnOrAfter] <;> omega

theorem raw_length (t : Int) (s : PostSched) (n : Nat) :
    (rawPostingSlots ((List.range n).map (weekEntry t s))).length = 2 * n := by
  induction n with
  | zero => rfl
  | succ n ih =>
    rw [List.range_succ, List.map_append, rawPostingSlots, List.flatMap_append]
    rw [rawPostingSlots] at ih
    simp only [List.length_append, ih, List.map_cons, List.map_nil,
      List.flatMap_cons, List.flatMap_nil, weekEntry_dates]
    simp [List.mapIdx_cons]
    omega

theorem raw_mem (t : Int) (s : PostSched) (n : Nat) :
    ∀ x ∈ rawPostingSlots ((List.range n).map (weekEntry t s)),
      ∃ w : Nat, w < n ∧ ∃ i : Fin 2, x.dateObj = calculatePostDate t w i s := by
  induction n with
  | zero => intro x hx; simp [rawPostingSlots] at hx
  | succ n ih =>
    intro x hx
    rw [List.range_succ, List.map_append, rawPostingSlots, List.flatMap_append] at hx
    rcases List.mem_append.1 hx with hx1 | hx2
    · obtain ⟨w, hw, i, hi⟩ := ih x hx1
      exact ⟨w, by omega, i, hi⟩
    · simp only [List.map_cons, List.map_nil, List.flatMap_cons, List.flatMap_nil,
        weekEntry_dates, List.append_nil, List.mapIdx_cons, List.mapIdx_nil,
        List.mem_cons, List.not_mem_nil, or_false] at hx2
      rcases hx2 with h | h
      · exact ⟨n, by omega, 0, by rw [h]⟩
      · exact ⟨n, by omega, 1, by rw [h]⟩

theorem raw_pairwise (t : Int) (s : PostSched) (n : Nat) :
    List.Pairwise (fun a b : RawSlot => a.dateObj < b.dateObj)
      (rawPostingSlots ((List.range n).map (weekEntry t s))) := by
  induction n with
  | zero => simp [rawPostingSlots]
  | succ n ih =>
    rw [List.range_succ, List.map_append, rawPostingSlots, List.flatMap_append]
    rw [rawPostingSlots] at ih
    rw [List.pairwise_append]
    refine ⟨ih, ?_, ?_⟩
    · simp only [List.map_cons, List.map_nil, List.flatMap_cons, List.flatMap_nil,
        weekEntry_dates, List.append_nil, List.mapIdx_cons, List.mapIdx_nil]
      have := calculatePostDate_step t s n
      simp
      omega
    · intro a ha b hb
      obtain ⟨w, hw, i, hi⟩ := raw_mem t s n a ha
      simp only [List.map_cons, List.map_nil, List.flatMap_cons, List.flatMap_nil,
        weekEntry_dates, List.append_nil, List.mapIdx_cons, List.mapIdx_nil,
        List.mem_cons, List.not_mem_nil, or_false] at hb
      have hab := calculatePostDate_bounds t s w i
      have hb0 := calculatePostDate_bounds t s n 0
      have hb1 := calculatePostDate_bounds t s n 1
      have hwn : (w : Int) + 1 ≤ (n : Int) := by exact_mod_cast hw
      rcases hb with h | h <;> rw [h] <;> simp <;> omega

theorem mergeSort_raw_eq (t : Int) (s : PostSched) (n : Nat) :
    (rawPostingSlots ((List.range n).map (weekEntry t s))).mergeSort
        (fun a b => decide (a.dateObj ≤ b.dateObj)) =
      rawPostingSlots ((List.range n).map (weekEntry t s)) := by
  apply List.mergeSort_of_sorted
  exact (raw_pairwise t s n).imp fun h => by simp; omega

/-- Claim C3: for every start date, weekday pair and positive week count,
the slot sequence built by `allPostingSlots` over `calculatePostingDates`
has exactly `2 * N` slots, its dates strictly increase with position, the
`sequence` field is the 1-based position, and every slot falls on one of
the two configured weekdays. -/
theorem allPostingSlots_invariants (t : Int) (s : PostSched) (N : Int)
    (hN : 0 < N) :
    (allPostingSlots (calculatePostingDates t s N)).length = 2 * N.toNat ∧
    List.Pairwise (fun a b : SeqSlot => a.dateObj < b.dateObj)
      (allPostingSlots (calculatePostingDates t s N)) ∧
    (∀ (i : Nat) (h : i < (allPostingSlots (calculatePostingDates t s N)).length),
      ((allPostingSlots (calculatePostingDates t s N)).get ⟨i, h⟩).sequence =
        (i : Int) + 1) ∧
    (∀ x ∈ allPostingSlots (calculatePostingDates t s N),
      getDay x.dateObj = (targetDays s).1 ∨ getDay x.dateObj = (targetDays s).2) := by
  have hrw : allPostingSlots (calculatePostingDates t s N) =
      (rawPostingSlots ((List.range N.toNat).map (weekEntry t s))).mapIdx
        (fun index r =>
          { week := r.week, postIndex := r.postIndex, dateObj := r.dateObj
            sequence := (index : Int) + 1 }) := by
    rw [allPostingSlots, calculatePostingDates, mergeSort_raw_eq]
  refine ⟨?_, ?_, ?_, ?_⟩
  · rw [hrw, List.length_mapIdx, raw_length]
  · rw [hrw]
    rw [List.pairwise_iff_getElem]
    intro i j hi hj hij
    have hp := (raw_pairwise t s N.toNat)
    rw [List.pairwise_iff_getElem] at hp
    rw [List.length_mapIdx] at hi hj
    rw [List.getElem_mapIdx, List.getElem_mapIdx]
    exact hp i j hi hj hij
  · intro i h
    simp only [List.get_eq_getElem]
    rw [List.getElem_of_eq hrw, List.getElem_mapIdx]
  · intro x hx
    rw [hrw] at hx
    rw [List.mem_mapIdx] at hx
    obtain ⟨i, hi, hfx⟩ := hx
    have hmem : (rawPostingSlots ((List.range N.toNat).map (weekEntry t s)))[i] ∈
        rawPostingSlots ((List.range N.toNat).map (weekEntry t s)) :=
      List.getElem_mem hi
    obtain ⟨w, hw, j, hj⟩ := raw_mem t s N.toNat _ hmem
    have hdx : x.dateObj =
        (rawPostingSlots ((List.range N.toNat).map (weekEntry t s)))[i].dateObj := by
      rw [← hfx]
    rw [hdx, hj, getDay_calculatePostDate]
    rcases j with ⟨jv, hjv⟩
    interval_cases jv
    · left; rfl
    · right; rfl

/-- Witness for `allPostingSlots_invariants` at a Sunday start 2024-12-22,
the Tuesday/Thursday pair, and one week. -/
theorem allPostingSlots_invariants_witness :
    (allPostingSlots (calculatePostingDates (daysFromCivil 2024 12 22) .TTH 1)).length =
        2 * (1 : Int).toNat ∧
      List.Pairwise (fun a b : SeqSlot => a.dateObj < b.dateObj)
        (allPostingSlots (calculatePostingDates (daysFromCivil 2024 12 22) .TTH 1)) ∧
      (∀ (i : Nat)
        (h : i < (allPostingSlots
          (calculatePostingDates (daysFromCivil 2024 12 22) .TTH 1)).length),
        ((allPostingSlots
          (calculatePostingDates (daysFromCivil 2024 12 22) .TTH 1)).get ⟨i, h⟩).sequence =
          (i : Int) + 1) ∧
      (∀ x ∈ allPostingSlots (calculatePostingDates (daysFromCivil 2024 12 22) .TTH 1),
        getDay x.dateObj = (targetDays .TTH).1 ∨ getDay x.dateObj = (targetDays .TTH).2) :=
  allPostingSlots_invariants (daysFromCivil 2024 12 22) .TTH 1 (by decide)

/-- Claim C9 counterexample: `calculatePostingDates` contains no check on
`numWeeks`; for a non-positive week count the loop body never runs and the
function returns the empty schedule as an ordinary value, with no
InvalidScheduleLength failure anywhere in the code. -/
theorem calculatePostingDates_nonpositive_returns :
    calculatePostingDates 0 .MW 0 = [] ∧ calculatePostingDates 0 .TTH (-3) = [] :=
  ⟨rfl, rfl⟩

/-- Claim C9 (amended): calling the schedule generator with a non-positive
week count returns the empty schedule; no error condition is raised. -/
theorem calculatePostingDates_nonpositive (t : Int) (s : PostSched) (N : Int)
    (hN : N ≤ 0) : calculatePostingDates t s N = [] := by
  unfold calculatePostingDates
  rw [Int.toNat_of_nonpos hN]
  rfl

/-- Witness for `calculatePostingDates_nonpositive` at week count -5. -/
theorem calculatePostingDates_nonpositive_witness :
    calculatePostingDates 100 .MW (-5) = [] :=
  calculatePostingDates_nonpositive 100 .MW (-5) (by decide)

/-! ### src/services/geminiService.ts, holidayAlignment (lines 753-805) -/

/-- Named calendar event as produced by the holiday calculator. -/
structure Holiday where
  name : String
  date : Int
deriving DecidableEq, Repr

/-- Relation of a chosen slot to its anchor. -/
inductive SlotRel
  | exact
  | before
  | after
deriving DecidableEq, Repr

/-- Result record for one anchor, lines 793-798; the `diffDescription`
string of the source is presentation only and is represented here by the
`diffDays` value it is rendered from. -/
structure HolidayAssignment where
  holiday : Holiday
  slot : SeqSlot
  relation : SlotRel
  diffDays : Int
deriving DecidableEq, Repr

/-- Per-anchor body of the `holidaysInRange.map` at lines 755-799: the
before-candidates are reduced to the one with the smallest nonnegative
distance (hence the latest date); when none exists the after-candidates
are reduced to the one with the smallest absolute distance; with no
candidates at all the anchor yields `none` (filtered out by
`.filter(Boolean)`).  `diffDays` models
`Math.round((holiday - chosen) / dayMs)`, which on midnight dates is the
exact signed day difference. -/
def alignAnchor (slots : List SeqSlot) (holiday : Holiday) :
    Option HolidayAssignment :=
  match slots.filter (fun slot => decide (slot.dateObj ≤ holiday.date)) with
  | best :: rest =>
    let chosen := rest.foldl
      (fun best current =>
        if holiday.date - current.dateObj < holiday.date - best.dateObj then
          current
        else best)
      best
    some { holiday := holiday, slot := chosen
           relation :=
             if chosen.dateObj = holiday.date then SlotRel.exact else SlotRel.before
           diffDays := holiday.date - chosen.dateObj }
  | [] =>
    match slots.filter (fun slot => decide (holiday.date < slot.dateObj)) with
    | [] => none
    | best :: rest =>
      let chosen := rest.foldl
        (fun best current =>
          if |holiday.date - current.dateObj| < |holiday.date - best.dateObj| then
            current
          else best)
        best
      some { holiday := holiday, slot := chosen, relation := SlotRel.after
             diffDays := holiday.date - chosen.dateObj }

/-- Whole `holidayAlignment` list: map then `.filter(Boolean)`. -/
def holidayAlignment (slots : List SeqSlot) (holidays : List Holiday) :
    List HolidayAssignment :=
  holidays.filterMap (alignAnchor slots)

/-- The reduce over before-candidates keeps a list member. -/
theorem foldl_max_mem (d : Int) (best : SeqSlot) (rest : List SeqSlot) :
    rest.foldl
        (fun b c => if d - c.dateObj < d - b.dateObj then c else b) best
      = best ∨
    rest.foldl
        (fun b c => if d - c.dateObj < d - b.dateObj then c else b) best
      ∈ rest := by
  induction rest generalizing best with
  | nil => left; rfl
  | cons x xs ih =>
    simp only [List.foldl_cons]
    rcases ih (if d - x.dateObj < d - best.dateObj then x else best) with h | h
    · rw [h]
      split
      · right; simp
      · left; rfl
    · right; exact List.mem_cons_of_mem x h

/-- The reduce over before-candidates maximizes the slot date. -/
theorem foldl_max_ge (d : Int) (best : SeqSlot) (rest : List SeqSlot) :
    best.dateObj ≤
        (rest.foldl
          (fun b c => if d - c.dateObj < d - b.dateObj then c else b) best).dateObj ∧
      ∀ x ∈ rest,
        x.dateObj ≤
          (rest.foldl
            (fun b c => if d - c.dateObj < d - b.dateObj then c else b) best).dateObj := by
  induction rest generalizing best with
  | nil => exact ⟨le_refl _, by simp⟩
  | cons x xs ih =>
    simp only [List.foldl_cons]
    obtain ⟨h1, h2⟩ := ih (if d - x.dateObj < d - best.dateObj then x else best)
    constructor
    · refine le_trans ?_ h1
      split <;> omega
    · intro y hy
      rcases List.mem_cons.1 hy with rfl | hy2
      · refine le_trans ?_ h1
        split <;> omega
      · exact h2 y hy2

/-- The reduce over after-candidates minimizes the absolute distance. -/
theorem foldl_absmin (d : Int) (best : SeqSlot) (rest : List SeqSlot) :
    (|d - (rest.foldl
          (fun b c => if |d - c.dateObj| < |d - b.dateObj| then c else b)
          best).dateObj| ≤ |d - best.dateObj| ∧
      ∀ x ∈ rest,
        |d - (rest.foldl
            (fun b c => if |d - c.dateObj| < |d - b.dateObj| then c else b)
            best).dateObj| ≤ |d - x.dateObj|) := by
  induction rest generalizing best with
  | nil => exact ⟨le_refl _, by simp⟩
  | cons x xs ih =>
    simp only [List.foldl_cons]
    obtain ⟨h1, h2⟩ := ih (if |d - x.dateObj| < |d - best.dateObj| then x else best)
    constructor
    · refine le_trans h1 ?_
      split <;> omega
    · intro y hy
      rcases List.mem_cons.1 hy with rfl | hy2
      · refine le_trans h1 ?_
        split <;> omega
      · exact h2 y hy2

/-- The after-candidates reduce also keeps a list member. -/
theorem foldl_absmin_mem (d : Int) (best : SeqSlot) (rest : List SeqSlot) :
    rest.foldl
        (fun b c => if |d - c.dateObj| < |d - b.dateObj| then c else b) best
      = best ∨
    rest.foldl
        (fun b c => if |d - c.dateObj| < |d - b.dateObj| then c else b) best
      ∈ rest := by
  induction rest generalizing best with
  | nil => left; rfl
  | cons x xs ih =>
    simp only [List.foldl_cons]
    rcases ih (if |d - x.dateObj| < |d - best.dateObj| then x else best) with h | h
    · rw [h]
      split
      · right; simp
      · left; rfl
    · right; exact List.mem_cons_of_mem x h

/-- Claim C1: whenever some posting slot falls on or before the anchor,
the resolver picks a slot on or before the anchor whose date is maximal
among such slots, reports `exact` precisely when the dates coincide and
`before` otherwise, and in particular never picks a slot dated after the
anchor. -/
theorem alignAnchor_prefers_before (slots : List SeqSlot) (h : Holiday)
    (hex : ∃ s ∈ slots, s.dateObj ≤ h.date) :
    ∃ a, alignAnchor slots h = some a ∧
      a.slot ∈ slots ∧
      a.slot.dateObj ≤ h.date ∧
      (∀ s ∈ slots, s.dateObj ≤ h.date → s.dateObj ≤ a.slot.dateObj) ∧
      a.relation =
        (if a.slot.dateObj = h.date then SlotRel.exact else SlotRel.before) ∧
      (∀ s ∈ slots, h.date < s.dateObj → a.slot ≠ s) := by
  obtain ⟨s0, hs0, hle⟩ := hex
  have hmem : s0 ∈ slots.filter (fun slot => decide (slot.dateObj ≤ h.date)) :=
    List.mem_filter.2 ⟨hs0, by simpa using hle⟩
  rcases hfil : slots.filter (fun slot => decide (slot.dateObj ≤ h.date)) with
    _ | ⟨best, rest⟩
  · rw [hfil] at hmem
    exact absurd hmem (List.not_mem_nil s0)
  · refine ⟨_, by rw [alignAnchor, hfil], ?_, ?_, ?_, rfl, ?_⟩
    · have hc := foldl_max_mem h.date best rest
      have : (rest.foldl
          (fun b c => if h.date - c.dateObj < h.date - b.dateObj then c else b)
          best) ∈ best :: rest := by
        rcases hc with hc | hc
        · rw [hc]; exact List.mem_cons_self best rest
        · exact List.mem_cons_of_mem best hc
      rw [← hfil] at this
      exact List.mem_of_mem_filter this
    · have hc := foldl_max_mem h.date best rest
      have : (rest.foldl
          (fun b c => if h.date - c.dateObj < h.date - b.dateObj then c else b)
          best) ∈ best :: rest := by
        rcases hc with hc | hc
        · rw [hc]; exact List.mem_cons_self best rest
        · exact List.mem_cons_of_mem best hc
      rw [← hfil] at this
      simpa using (List.mem_filter.1 this).2
    · intro s hs hsle
      have hsf : s ∈ best :: rest := by
        rw [← hfil]
        exact List.mem_filter.2 ⟨hs, by simpa using hsle⟩
      obtain ⟨h1, h2⟩ := foldl_max_ge h.date best rest
      rcases List.mem_cons.1 hsf with rfl | hsr
      · exact h1
      · exact h2 s hsr
    · intro s hs hgt
      intro hcontra
      have hc := foldl_max_mem h.date best rest
      have hmem2 : (rest.foldl
          (fun b c => if h.date - c.dateObj < h.date - b.dateObj then c else b)
          best) ∈ best :: rest := by
        rcases hc with hc | hc
        · rw [hc]; exact List.mem_cons_self best rest
        · exact List.mem_cons_of_mem best hc
      rw [← hfil] at hmem2
      have := (List.mem_filter.1 hmem2).2
      simp only [decide_eq_true_eq] at this
      rw [← hcontra] at hgt
      dsimp only at hgt
      omega

/-- Concrete slots for the worked example of the specification: a Monday
2024-12-23 and a Thursday 2024-12-26. -/
def decemberSlots : List SeqSlot :=
  [{ week := 1, postIndex := 0, dateObj := daysFromCivil 2024 12 23, sequence := 1 },
   { week := 1, postIndex := 1, dateObj := daysFromCivil 2024 12 26, sequence := 2 }]

/-- Christmas 2024 as an anchor. -/
def christmasAnchor : Holiday :=
  { name := "Christmas Day", date := daysFromCivil 2024 12 25 }

/-- Witness for `alignAnchor_prefers_before`: the worked example of the
specification, slots on 2024-12-23 and 2024-12-26 with the anchor
Christmas 2024-12-25. -/
theorem alignAnchor_prefers_before_witness :
    ∃ a : HolidayAssignment, alignAnchor decemberSlots christmasAnchor = some a ∧
      a.slot ∈ decemberSlots ∧
      a.slot.dateObj ≤ christmasAnchor.date ∧
      (∀ s ∈ decemberSlots, s.dateObj ≤ christmasAnchor.date →
        s.dateObj ≤ a.slot.dateObj) ∧
      a.relation =
        (if a.slot.dateObj = christmasAnchor.date then SlotRel.exact
         else SlotRel.before) ∧
      (∀ s ∈ decemberSlots, christmasAnchor.date < s.dateObj → a.slot ≠ s) :=
  alignAnchor_prefers_before decemberSlots christmasAnchor (by decide)

/-- Claim C6: the resolver is a total function.  When no slot falls on or
before the anchor but some slot falls after it, the chosen slot is an
after-slot of minimal absolute distance and the relation is `after`; with
an empty slot list the anchor simply yields no assignment. -/
theorem alignAnchor_after_total (slots : List SeqSlot) (h : Holiday) :
    ((∀ s ∈ slots, h.date < s.dateObj) → slots ≠ [] →
      ∃ a, alignAnchor slots h = some a ∧
        a.slot ∈ slots ∧
        h.date < a.slot.dateObj ∧
        a.relation = SlotRel.after ∧
        ∀ s ∈ slots, |h.date - a.slot.dateObj| ≤ |h.date - s.dateObj|) ∧
    (slots = [] → alignAnchor slots h = none) := by
  constructor
  · intro hall hne
    have hfil1 : slots.filter (fun slot => decide (slot.dateObj ≤ h.date)) = [] := by
      rw [List.filter_eq_nil_iff]
      intro s hs
      have := hall s hs
      simp only [decide_eq_true_eq]
      omega
    have hfil2 : slots.filter (fun slot => decide (h.date < slot.dateObj)) = slots := by
      rw [List.filter_eq_self]
      intro s hs
      simpa using hall s hs
    rcases hslots : slots with _ | ⟨best, rest⟩
    · exact absurd hslots hne
    · rw [hslots] at hfil1 hfil2 hall
      refine ⟨_, by rw [alignAnchor, hfil1, hfil2], ?_, ?_, rfl, ?_⟩
      · have hc := foldl_absmin_mem h.date best rest
        rcases hc with hc | hc
        · rw [hc]; exact List.mem_cons_self best rest
        · exact List.mem_cons_of_mem best hc
      · have hc := foldl_absmin_mem h.date best rest
        rcases hc with hc | hc
        · rw [hc]; exact hall best (List.mem_cons_self best rest)
        · exact hall _ (List.mem_cons_of_mem best hc)
      · intro s hs
        obtain ⟨h1, h2⟩ := foldl_absmin h.date best rest
        rcases List.mem_cons.1 hs with rfl | hsr
        · exact h1
        · exact h2 s hsr
  · intro hnil
    rw [hnil]
    rfl

/-- Single slot 2024-12-30, wholly after Christmas 2024. -/
def lateSlots : List SeqSlot :=
  [{ week := 1, postIndex := 0, dateObj := daysFromCivil 2024 12 30, sequence := 1 }]

/-- Witness for `alignAnchor_after_total`: a single slot 2024-12-30 after
the anchor 2024-12-25. -/
theorem alignAnchor_after_total_witness :
    ∃ a : HolidayAssignment, alignAnchor lateSlots christmasAnchor = some a ∧
      a.slot ∈ lateSlots ∧
      christmasAnchor.date < a.slot.dateObj ∧
      a.relation = SlotRel.after ∧
      ∀ s ∈ lateSlots,
        |christmasAnchor.date - a.slot.dateObj| ≤ |christmasAnchor.date - s.dateObj| :=
  (alignAnchor_after_total lateSlots christmasAnchor).1 (by decide) (by decide)

/-! ### Hashtag normalization, geminiService.ts lines 1039 and 1240:
  `caption.replace(/#(\w+)/g, (_match, tag) => ...)` with the tag
  lowercased. -/

/-- Character class `\w` of the hashtag regex: ASCII letters, digits and
underscore, by code point. -/
def isWordChar (c : Char) : Bool :=
  decide ((65 ≤ c.toNat ∧ c.toNat ≤ 90) ∨ (97 ≤ c.toNat ∧ c.toNat ≤ 122) ∨
    (48 ≤ c.toNat ∧ c.toNat ≤ 57) ∨ c.toNat = 95)

/-- JavaScript `toLowerCase()` restricted to the characters `\w` can
match: on ASCII it adds 32 to an uppercase letter and leaves every other
character unchanged. -/
def jsToLower (c : Char) : Char :=
  if 65 ≤ c.toNat ∧ c.toNat ≤ 90 then Char.ofNat (c.toNat + 32) else c

/-- Global replace of `/#(\w+)/g`: scanning left to right, a hash
followed by at least one word character is rewritten to the hash plus the
lowercased maximal word-character run, and scanning resumes after the
run. -/
def lowercaseHashtags : List Char → List Char
  | [] => []
  | c :: cs =>
    if c = '#' ∧ cs.takeWhile isWordChar ≠ [] then
      '#' :: ((cs.takeWhile isWordChar).map jsToLower ++
        lowercaseHashtags (cs.dropWhile isWordChar))
    else c :: lowercaseHashtags cs
termination_by l => l.length
decreasing_by
  · have := (List.dropWhile_sublist isWordChar (l := cs)).length_le
    simp only [List.length_cons]
    omega
  · simp

/-- Post-processing of one caption. -/
def normalizeCaption (s : String) : String := ⟨lowercaseHashtags s.data⟩

theorem toNat_ofNat_valid (n : Nat) (h : n < 55296) : (Char.ofNat n).toNat = n := by
  unfold Char.ofNat Char.toNat
  rw [dif_pos (Or.inl h)]
  rfl

theorem jsToLower_toNat (c : Char) (h : 65 ≤ c.toNat ∧ c.toNat ≤ 90) :
    (jsToLower c).toNat = c.toNat + 32 := by
  rw [jsToLower, if_pos h, toNat_ofNat_valid]
  omega

theorem jsToLower_word (c : Char) (h : isWordChar c = true) :
    isWordChar (jsToLower c) = true := by
  by_cases hc : 65 ≤ c.toNat ∧ c.toNat ≤ 90
  · have := jsToLower_toNat c hc
    unfold isWordChar at *
    simp only [decide_eq_true_eq] at *
    omega
  · rw [jsToLower, if_neg hc]
    exact h

theorem jsToLower_idem (c : Char) : jsToLower (jsToLower c) = jsToLower c := by
  by_cases hc : 65 ≤ c.toNat ∧ c.toNat ≤ 90
  · have h1 := jsToLower_toNat c hc
    have h2 : ¬(65 ≤ (jsToLower c).toNat ∧ (jsToLower c).toNat ≤ 90) := by omega
    show (if 65 ≤ (jsToLower c).toNat ∧ (jsToLower c).toNat ≤ 90 then
        Char.ofNat ((jsToLower c).toNat + 32) else jsToLower c) = jsToLower c
    rw [if_neg h2]
  · show (if 65 ≤ (jsToLower c).toNat ∧ (jsToLower c).toNat ≤ 90 then
        Char.ofNat ((jsToLower c).toNat + 32) else jsToLower c) = jsToLower c
    rw [jsToLower, if_neg hc, if_neg hc]

theorem lowercaseHashtags_nil : lowercaseHashtags [] = [] := by
  rw [lowercaseHashtags]

theorem lowercaseHashtags_cons (c : Char) (cs : List Char) :
    lowercaseHashtags (c :: cs) =
      if c = '#' ∧ cs.takeWhile isWordChar ≠ [] then
        '#' :: ((cs.takeWhile isWordChar).map jsToLower ++
          lowercaseHashtags (cs.dropWhile isWordChar))
      else c :: lowercaseHashtags cs := by
  rw [lowercaseHashtags]

theorem lowercaseHashtags_head (l : List Char) :
    (lowercaseHashtags l).head? = l.head? := by
  rcases l with _ | ⟨c, cs⟩
  · rw [lowercaseHashtags_nil]
  · rw [lowercaseHashtags_cons]
    split
    · rename_i h
      rw [h.1]
      rfl
    · rfl

theorem takeWhile_nil_of_head {α : Type} (p : α → Bool) (l : List α)
    (h : ∀ r, l.head? = some r → p r = false) : l.takeWhile p = [] := by
  rcases l with _ | ⟨x, xs⟩
  · rfl
  · rw [List.takeWhile_cons, if_neg]
    simp [h x rfl]

theorem head_false_of_takeWhile_nil {α : Type} (p : α → Bool) (l : List α)
    (h : l.takeWhile p = []) : ∀ r, l.head? = some r → p r = false := by
  rcases l with _ | ⟨x, xs⟩
  · intro r hr
    exact absurd hr (by simp)
  · rw [List.takeWhile_cons] at h
    by_cases px : p x = true
    · rw [if_pos px] at h
      exact absurd h (by simp)
    · intro r hr
      obtain rfl : x = r := by injection hr
      simpa using px

theorem head_dropWhile_false {α : Type} (p : α → Bool) (l : List α) :
    ∀ r, (List.dropWhile p l).head? = some r → p r = false := by
  intro r hr
  have := List.head?_dropWhile_not p l
  rw [hr] at this
  exact this

theorem takeWhile_word_prefix (tag rest : List Char)
    (htag : ∀ x ∈ tag, isWordChar x = true)
    (hrest : ∀ r, rest.head? = some r → isWordChar r = false) :
    (tag ++ rest).takeWhile isWordChar = tag ∧
    (tag ++ rest).dropWhile isWordChar = rest := by
  constructor
  · rw [List.takeWhile_append]
    have hts : tag.takeWhile isWordChar = tag := List.takeWhile_eq_self_iff.2 htag
    rw [hts, if_pos rfl, takeWhile_nil_of_head isWordChar rest hrest, List.append_nil]
  · rw [List.dropWhile_append]
    have hds : tag.dropWhile isWordChar = [] := List.dropWhile_eq_nil_iff.2 htag
    rw [hds]
    rcases rest with _ | ⟨r, rs⟩
    · rfl
    · have hr : isWordChar r = false := hrest r rfl
      simp [List.dropWhile_cons, hr]

/-- Claim C10: the lowercase-hashtag normalization applied to a caption
is idempotent: a second application returns the first result unchanged. -/
theorem normalizeCaption_idempotent (s : String) :
    normalizeCaption (normalizeCaption s) = normalizeCaption s := by
  have main : ∀ (n : Nat) (l : List Char), l.length ≤ n →
      lowercaseHashtags (lowercaseHashtags l) = lowercaseHashtags l := by
    intro n
    induction n with
    | zero =>
      intro l hl
      have hnil : l = [] := List.length_eq_zero.1 (by omega)
      rw [hnil, lowercaseHashtags_nil, lowercaseHashtags_nil]
    | succ n ih =>
      intro l hl
      rcases l with _ | ⟨c, cs⟩
      · rw [lowercaseHashtags_nil, lowercaseHashtags_nil]
      · simp only [List.length_cons] at hl
        rw [lowercaseHashtags_cons c cs]
        split
        · rename_i h
          obtain ⟨hc, htag⟩ := h
          have htagw : ∀ x ∈ (cs.takeWhile isWordChar).map jsToLower,
              isWordChar x = true := by
            intro x hx
            rw [List.mem_map] at hx
            obtain ⟨y, hy, rfl⟩ := hx
            exact jsToLower_word y (List.mem_takeWhile_imp hy)
          have hresthead : ∀ r,
              (lowercaseHashtags (cs.dropWhile isWordChar)).head? = some r →
                isWordChar r = false := by
            intro r hr
            rw [lowercaseHashtags_head] at hr
            exact head_dropWhile_false isWordChar cs r hr
          obtain ⟨hTW, hDW⟩ :=
            takeWhile_word_prefix ((cs.takeWhile isWordChar).map jsToLower)
              (lowercaseHashtags (cs.dropWhile isWordChar)) htagw hresthead
          rw [lowercaseHashtags_cons]
          rw [if_pos ⟨rfl, by rw [hTW]; simpa using htag⟩]
          rw [hTW, hDW]
          have hlen : (cs.dropWhile isWordChar).length ≤ n := by
            have := (List.dropWhile_sublist isWordChar (l := cs)).length_le
            omega
          rw [ih _ hlen, List.map_map]
          have hmap : (cs.takeWhile isWordChar).map (jsToLower ∘ jsToLower) =
              (cs.takeWhile isWordChar).map jsToLower :=
            List.map_congr_left fun x _ => jsToLower_idem x
          rw [hmap]
        · rename_i h
          rw [lowercaseHashtags_cons]
          rw [if_neg ?neg]
          case neg =>
            intro hcontra
            apply h
            refine ⟨hcontra.1, fun hnil => hcontra.2 ?_⟩
            exact takeWhile_nil_of_head isWordChar _ fun r hr => by
              rw [lowercaseHashtags_head] at hr
              exact head_false_of_takeWhile_nil isWordChar cs hnil r hr
          rw [ih cs (by omega)]
  exact congrArg String.mk (main s.data.length s.data le_rfl)

/-! ### src/services/geminiService.ts, generateWeeksBatch post-processing
  (lines 1032-1045) -/

/-- Generated post content. -/
structure Post where
  title : String
  caption : String
  photoIdeas : Option String
deriving DecidableEq, Repr

/-- One parsed week of the batch response. -/
structure WeekPlan where
  week : Int
  posts : List Post
deriving DecidableEq, Repr

/-- The `processedWeeks` map of lines 1034-1041: every returned week gets
its `week` field overwritten with `weekStart + index` and every caption
passes through the lowercase-hashtag normalization. -/
def processedWeeks (weekStart : Int) (weeks : List WeekPlan) : List WeekPlan :=
  weeks.mapIdx fun index w =>
    { w with
      week := weekStart + (index : Int)
      posts := w.posts.map fun p => { p with caption := normalizeCaption p.caption } }

theorem processedWeeks_week_map (weekStart : Int) (weeks : List WeekPlan) :
    (processedWeeks weekStart weeks).map (fun w => w.week) =
      (List.range weeks.length).map (fun i : Nat => weekStart + (i : Int)) := by
  apply List.ext_getElem
  · simp [processedWeeks]
  · intro i h1 h2
    simp only [processedWeeks, List.getElem_map, List.getElem_mapIdx,
      List.getElem_range]

/-- Claim C7: plan assembly overwrites each returned week label with
`weekStart + index`, so a batch requested as weeks 5 through 8 yields
weeks numbered 5, 6, 7, 8 in order regardless of the labels the external
generator returned. -/
theorem generateWeeksBatch_renumber (weekStart : Int) (weeks : List WeekPlan) :
    ((processedWeeks weekStart weeks).map (fun w => w.week) =
      (List.range weeks.length).map (fun i : Nat => weekStart + (i : Int))) ∧
    (weeks.length = 4 →
      (processedWeeks 5 weeks).map (fun w => w.week) = [5, 6, 7, 8]) := by
  refine ⟨processedWeeks_week_map weekStart weeks, ?_⟩
  intro h4
  rw [processedWeeks_week_map 5 weeks, h4]
  decide

/-- Four weeks all mislabeled `week := 1` by the external generator. -/
def mislabeledBatch : List WeekPlan :=
  [{ week := 1, posts := [] }, { week := 1, posts := [] },
   { week := 1, posts := [] }, { week := 1, posts := [] }]

/-- Witness for `generateWeeksBatch_renumber`: the mislabeled batch
requested as weeks 5 through 8 comes out numbered 5, 6, 7, 8. -/
theorem generateWeeksBatch_renumber_witness :
    (processedWeeks 5 mislabeledBatch).map (fun w => w.week) = [5, 6, 7, 8] :=
  (generateWeeksBatch_renumber 5 mislabeledBatch).2 rfl

/-! ### src/services/geminiService.ts, sanitizeJsonStringLiterals and
  parseJsonSafely (lines 509-527) -/

/-- Line terminators that the regex metacharacter `.` does not match. -/
def isLineTerm (c : Char) : Bool :=
  c = '\n' ∨ c = '\r' ∨ c = '\u2028' ∨ c = '\u2029'

/-- Attempt to match the tail of the regex
`"([^"\\]*(?:\\.[^"\\]*)*)"` after its opening quote: consume
non-quote non-backslash characters and backslash-escaped pairs until the
closing quote; return the inner characters and the remainder.  Failure of
the greedy attempt is final for this starting position, since no shorter
prefix of the content can be followed by a quote. -/
def matchLiteralTail : List Char → List Char → Option (List Char × List Char)
  | [], _ => none
  | c :: cs, acc =>
    if c = '"' then some (acc.reverse, cs)
    else if c = '\\' then
      match cs with
      | [] => none
      | c2 :: cs2 =>
        if isLineTerm c2 then none else matchLiteralTail cs2 (c2 :: '\\' :: acc)
    else matchLiteralTail cs (c :: acc)

/-- The replacement body: `inner.replace(/\r/g, ...)` then
`.replace(/\n/g, ...)`, escaping every bare carriage return and newline
inside the matched literal. -/
def escapeBareNewlines (cs : List Char) : List Char :=
  (cs.flatMap fun c => if c = '\r' then ['\\', 'r'] else [c]).flatMap
    fun c => if c = '\n' then ['\\', 'n'] else [c]

theorem matchLiteralTail_nil (acc : List Char) :
    matchLiteralTail [] acc = none := by
  rw [matchLiteralTail.eq_def]

theorem matchLiteralTail_cons (c : Char) (cs acc : List Char) :
    matchLiteralTail (c :: cs) acc =
      if c = '"' then some (acc.reverse, cs)
      else if c = '\\' then
        match cs with
        | [] => none
        | c2 :: cs2 =>
          if isLineTerm c2 then none else matchLiteralTail cs2 (c2 :: '\\' :: acc)
      else matchLiteralTail cs (c :: acc) := by
  rw [matchLiteralTail.eq_def]

theorem matchLiteralTail_rest_length :
    ∀ (n : Nat) (l acc inner rest : List Char), l.length ≤ n →
      matchLiteralTail l acc = some (inner, rest) → rest.length ≤ l.length := by
  intro n
  induction n with
  | zero =>
    intro l acc inner rest hl hm
    have : l = [] := List.length_eq_zero.1 (by omega)
    rw [this, matchLiteralTail_nil] at hm
    exact absurd hm (by simp)
  | succ n ih =>
    intro l acc inner rest hl hm
    rcases l with _ | ⟨c, cs⟩
    · rw [matchLiteralTail_nil] at hm
      exact absurd hm (by simp)
    · rw [matchLiteralTail_cons] at hm
      simp only [List.length_cons] at hl
      by_cases hq : c = '"'
      · rw [if_pos hq] at hm
        obtain ⟨-, rfl⟩ : inner = acc.reverse ∧ cs = rest := by
          injection hm with h
          injection h with h1 h2
          exact ⟨h1.symm, h2⟩
        simp
      · rw [if_neg hq] at hm
        by_cases hb : c = '\\'
        · rw [if_pos hb] at hm
          rcases cs with _ | ⟨c2, cs2⟩
          · exact absurd hm (by simp)
          · dsimp only at hm
            by_cases ht : isLineTerm c2 = true
            · rw [if_pos ht] at hm
              exact absurd hm (by simp)
            · rw [if_neg ht] at hm
              have := ih cs2 _ inner rest (by simp at hl ⊢; omega) hm
              simp at this ⊢
              omega
        · rw [if_neg hb] at hm
          have := ih cs _ inner rest (by omega) hm
          simp at this ⊢
          omega

/-- Global replace of the string-literal regex: scan left to right; at an
opening quote with a complete literal, emit the literal with bare CR and
LF escaped and resume after it; everywhere else copy the character. -/
def sanitizeChars : List Char → List Char
  | [] => []
  | c :: cs =>
    if h : c = '"' ∧ (matchLiteralTail cs []).isSome then
      match hm : matchLiteralTail cs [] with
      | some (inner, rest) =>
        '"' :: (escapeBareNewlines inner ++ ('"' :: sanitizeChars rest))
      | none => c :: sanitizeChars cs
    else c :: sanitizeChars cs
termination_by l => l.length
decreasing_by
  · have := matchLiteralTail_rest_length cs.length cs [] inner rest le_rfl hm
    simp only [List.length_cons]
    omega
  · simp
  · simp

/-- Function `sanitizeJsonStringLiterals` of geminiService.ts. -/
def sanitizeJsonStringLiterals (input : String) : String :=
  ⟨sanitizeChars input.data⟩

/-- JavaScript exception value as far as `parseJsonSafely` inspects it:
whether it is an `instanceof Error`, and its message. -/
structure JsError where
  isErrorInstance : Bool
  message : String
deriving DecidableEq, Repr

/-- Function `parseJsonSafely` of geminiService.ts, with the host
`JSON.parse` supplied as an explicit fallible function: try the standard
parse; on failure sanitize once and retry; if the retry also fails,
rethrow the initial error when it is an `Error` instance, otherwise the
second error. -/
def parseJsonSafely {α : Type} (parse : String → Except JsError α)
    (rawJson : String) : Except JsError α :=
  match parse rawJson with
  | .ok v => .ok v
  | .error initialError =>
    match parse (sanitizeJsonStringLiterals rawJson) with
    | .ok v => .ok v
    | .error sanitizedError =>
      .error (if initialError.isErrorInstance then initialError else sanitizedError)

/-- Claim C8: `parseJsonSafely` first attempts the standard parse and
returns its result on success; on failure it makes exactly one repair
attempt, re-parsing the input with bare control characters escaped inside
string literals, and returns that result on success; when the repaired
parse also fails it returns the original parse error (`JSON.parse`
failures are always `Error` instances).  The three cases exhaust the
behaviour, and the only re-parsed input is
`sanitizeJsonStringLiterals rawJson`, so no second repair ever happens. -/
theorem parseJsonSafely_once {α : Type} (parse : String → Except JsError α)
    (raw : String) :
    (∀ v, parse raw = .ok v → parseJsonSafely parse raw = .ok v) ∧
    (∀ e₁ v, parse raw = .error e₁ →
      parse (sanitizeJsonStringLiterals raw) = .ok v →
      parseJsonSafely parse raw = .ok v) ∧
    (∀ e₁ e₂, parse raw = .error e₁ →
      parse (sanitizeJsonStringLiterals raw) = .error e₂ →
      e₁.isErrorInstance = true →
      parseJsonSafely parse raw = .error e₁) := by
  refine ⟨?_, ?_, ?_⟩
  · intro v hv
    rw [parseJsonSafely, hv]
  · intro e₁ v h1 h2
    rw [parseJsonSafely, h1, h2]
  · intro e₁ e₂ h1 h2 he
    rw [parseJsonSafely, h1, h2]
    simp [he]

/-- Parse stub that fails on every input with an `Error` instance whose
message is the input. -/
def alwaysFailingParse : String → Except JsError Nat :=
  fun s => .error { isErrorInstance := true, message := s }

/-- Witness for `parseJsonSafely_once`: when both the standard parse and
the one repaired re-parse fail, the original error is the result. -/
theorem parseJsonSafely_once_witness :
    parseJsonSafely alwaysFailingParse "not json at all" =
      .error { isErrorInstance := true, message := "not json at all" } :=
  (parseJsonSafely_once alwaysFailingParse "not json at all").2.2
    { isErrorInstance := true, message := "not json at all" }
    { isErrorInstance := true,
      message := sanitizeJsonStringLiterals "not json at all" }
    rfl rfl rfl

/-! ### src/utils/holidayUtils.ts, calculateEasterSunday (lines 23-39) -/

/-- Function `calculateEasterSunday` of holidayUtils.ts: `Math.floor` of a
division by a positive constant is the Euclidean `/`, and the JavaScript
`%` is `jsMod`. -/
def calculateEasterSunday (year : Int) : Int :=
  let a := jsMod year 19
  let b := year / 100
  let c := jsMod year 100
  let d := b / 4
  let e := jsMod b 4
  let f := (b + 8) / 25
  let g := (b - f + 1) / 3
  let h := jsMod (19 * a + b - d - g + 15) 30
  let i := c / 4
  let k := jsMod c 4
  let l := jsMod (32 + 2 * e + 2 * i - h - k) 7
  let m := (a + 11 * h + 22 * l) / 451
  let month := (h + l - 7 * m + 114) / 31 - 1
  let day := jsMod (h + l - 7 * m + 114) 31 + 1
  mkDate year month day

/-- Modelled from the spec: the canonical Meeus/Jones/Butcher anonymous
Gregorian algorithm, producing the 1-based month (3 = March, 4 = April)
and the day of Easter Sunday, stated for nonnegative years where every
remainder is nonnegative. -/
def meeusEaster (y : Int) : Int × Int :=
  let a := y % 19
  let b := y / 100
  let c := y % 100
  let d := b / 4
  let e := b % 4
  let f := (b + 8) / 25
  let g := (b - f + 1) / 3
  let h := (19 * a + b - d - g + 15) % 30
  let i := c / 4
  let k := c % 4
  let l := (32 + 2 * e + 2 * i - h - k) % 7
  let m := (a + 11 * h + 22 * l) / 451
  ((h + l - 7 * m + 114) / 31, (h + l - 7 * m + 114) % 31 + 1)

theorem mkDate_of_regular (y m0 d : Int) (h0 : 0 ≤ m0) (h11 : m0 ≤ 11) :
    mkDate y m0 d = daysFromCivil y (m0 + 1) d := by
  unfold mkDate
  have h1 : m0 / 12 = 0 := by omega
  have h2 : m0 % 12 = m0 := by omega
  rw [h1, h2, add_zero]

theorem jsMod_eq_emod (a b : Int) (h : 0 ≤ a) : jsMod a b = a % b := if_pos h

theorem calculateEasterSunday_pos (y : Int) (hy : 0 ≤ y) :
    calculateEasterSunday y =
      mkDate y ((meeusEaster y).1 - 1) (meeusEaster y).2 := by
  simp only [calculateEasterSunday, meeusEaster]
  rw [jsMod_eq_emod y 19 hy, jsMod_eq_emod y 100 hy]
  set A := y % 19 with hA
  set B := y / 100 with hB
  set C := y % 100 with hC
  rw [jsMod_eq_emod B 4 (by omega), jsMod_eq_emod C 4 (by omega)]
  rw [jsMod_eq_emod (19 * A + B - B / 4 - (B - (B + 8) / 25 + 1) / 3 + 15) 30
    (by omega)]
  set H := (19 * A + B - B / 4 - (B - (B + 8) / 25 + 1) / 3 + 15) % 30 with hH
  rw [jsMod_eq_emod (32 + 2 * (B % 4) + 2 * (C / 4) - H - C % 4) 7 (by omega)]
  set L := (32 + 2 * (B % 4) + 2 * (C / 4) - H - C % 4) % 7 with hL
  rw [jsMod_eq_emod (H + L - 7 * ((A + 11 * H + 22 * L) / 451) + 114) 31
    (by omega)]

theorem meeusEaster_month_bounds (y : Int) (hy : 0 ≤ y) :
    3 ≤ (meeusEaster y).1 ∧ (meeusEaster y).1 ≤ 4 := by
  simp only [meeusEaster]
  omega

/-- Claim C5: for every Gregorian year the code computes exactly the date
given by the canonical Meeus/Jones/Butcher algorithm (the code keeps the
same arithmetic and only converts the 1-based month to the 0-based month
index of the `Date` constructor), and in particular Easter 2024 is
March 31, Easter 2025 is April 20, and Easter 2023 is April 9. -/
theorem calculateEasterSunday_meeus :
    (∀ y : Int, 0 ≤ y →
      calculateEasterSunday y =
        daysFromCivil y (meeusEaster y).1 (meeusEaster y).2) ∧
    calculateEasterSunday 2024 = daysFromCivil 2024 3 31 ∧
    calculateEasterSunday 2025 = daysFromCivil 2025 4 20 ∧
    calculateEasterSunday 2023 = daysFromCivil 2023 4 9 := by
  refine ⟨?_, by decide, by decide, by decide⟩
  intro y hy
  obtain ⟨hm3, hm4⟩ := meeusEaster_month_bounds y hy
  rw [calculateEasterSunday_pos y hy,
    mkDate_of_regular y _ _ (by omega) (by omega)]
  congr 1
  omega

/-- Witness for `calculateEasterSunday_meeus`: the algorithm equality at
the concrete year 2024. -/
theorem calculateEasterSunday_meeus_witness :
    calculateEasterSunday 2024 =
      daysFromCivil 2024 (meeusEaster 2024).1 (meeusEaster 2024).2 :=
  calculateEasterSunday_meeus.1 2024 (by decide)

/-! ### src/utils/holidayUtils.ts, rule shapes and generator table
  (lines 8-79) -/

/-- Function `nthWeekdayOfMonth` of holidayUtils.ts. -/
def nthWeekdayOfMonth (year monthIndex weekday occurrence : Int) : Int :=
  let firstOfMonth := mkDate year monthIndex 1
  let firstWeekday := jsMod (weekday - getDay firstOfMonth + 7) 7
  let day := 1 + firstWeekday + (occurrence - 1) * 7
  mkDate year monthIndex day

/-- Function `lastWeekdayOfMonth` of holidayUtils.ts: the value
`new Date(firstOfNextMonth.getTime() - 1)` lies one millisecond before
midnight and so carries the calendar day preceding `firstOfNextMonth`. -/
def lastWeekdayOfMonth (year monthIndex weekday : Int) : Int :=
  let firstOfNextMonth := mkDate year (monthIndex + 1) 1
  let lastDayOfMonth := firstOfNextMonth - 1
  let diff := jsMod (getDay lastDayOfMonth - weekday + 7) 7
  mkDate year monthIndex (getDate lastDayOfMonth - diff)

/-- The four rule shapes a generator closure of holidayUtils.ts can have:
`fixedDateHoliday`, `nthWeekdayHoliday`, `lastWeekdayHoliday`, and the
Easter closure. -/
inductive HRule
  | fixedDate (monthIndex day : Int)
  | nthWeekday (monthIndex weekday occurrence : Int)
  | lastWeekday (monthIndex weekday : Int)
  | easter
deriving DecidableEq, Repr

/-- Date computed by one generator closure for one year. -/
def evalRule : HRule → Int → Int
  | .fixedDate monthIndex day, year => mkDate year monthIndex day
  | .nthWeekday monthIndex weekday occurrence, year =>
      nthWeekdayOfMonth year monthIndex weekday occurrence
  | .lastWeekday monthIndex weekday, year =>
      lastWeekdayOfMonth year monthIndex weekday
  | .easter, year => calculateEasterSunday year

/-- The `HOLIDAY_GENERATORS` array of holidayUtils.ts, each closure
represented by its name and rule shape. -/
def HOLIDAY_GENERATORS : List (String × HRule) :=
  [("New Year\u0027s Day", .fixedDate 0 1),
   ("Martin Luther King Jr. Day", .nthWeekday 0 1 3),
   ("Valentine\u0027s Day", .fixedDate 1 14),
   ("Presidents\u0027 Day", .nthWeekday 1 1 3),
   ("St. Patrick\u0027s Day", .fixedDate 2 17),
   ("Easter Sunday", .easter),
   ("Mother\u0027s Day", .nthWeekday 4 0 2),
   ("Memorial Day", .lastWeekday 4 1),
   ("Father\u0027s Day", .nthWeekday 5 0 3),
   ("Independence Day", .fixedDate 6 4),
   ("Labor Day", .nthWeekday 8 1 1),
   ("Halloween", .fixedDate 9 31),
   ("Veterans Day", .fixedDate 10 11),
   ("Thanksgiving", .nthWeekday 10 4 4),
   ("Christmas Day", .fixedDate 11 25),
   ("New Year\u0027s Eve", .fixedDate 11 31)]

/-- The candidate-year loop bounds of `getHolidaysInRange`, lines 82-87:
every year from `startYear - 1` to `endYear + 1` inclusive. -/
def candidateYears (rangeStart rangeEnd : Int) : List Int :=
  let startYear := getFullYear rangeStart
  let endYear := getFullYear rangeEnd
  (List.range (endYear + 1 - (startYear - 1) + 1).toNat).map
    fun i : Nat => startYear - 1 + (i : Int)

/-- Function `getHolidaysInRange` of holidayUtils.ts, lines 81-97: for
each candidate year every generator runs once, dates inside
`[rangeStart, rangeEnd]` are kept, and the result is sorted ascending by
date (a stable JavaScript sort by `getTime`). -/
def getHolidaysInRange (rangeStart rangeEnd : Int) : List Holiday :=
  ((candidateYears rangeStart rangeEnd).flatMap fun year =>
    (HOLIDAY_GENERATORS.map fun g =>
      ({ name := g.1, date := evalRule g.2 year } : Holiday)).filter fun h =>
        decide (rangeStart ≤ h.date) && decide (h.date ≤ rangeEnd)).mergeSort
    fun a b => decide (a.date ≤ b.date)

set_option maxHeartbeats 1000000 in
/-- Any date built from a 1-based month in range and a day between 1 and
31 falls inside its calendar year. -/
theorem daysFromCivil_in_year (y m d : Int) (hm1 : 1 ≤ m) (hm2 : m ≤ 12)
    (hd1 : 1 ≤ d) (hd2 : d ≤ 31) :
    daysFromCivil y 1 1 ≤ daysFromCivil y m d ∧
      daysFromCivil y m d < daysFromCivil (y + 1) 1 1 := by
  simp only [daysFromCivil]
  split_ifs <;> omega

theorem mkDate_in_year (y m0 d : Int) (h0 : 0 ≤ m0) (h11 : m0 ≤ 11)
    (hd1 : 1 ≤ d) (hd2 : d ≤ 31) :
    daysFromCivil y 1 1 ≤ mkDate y m0 d ∧
      mkDate y m0 d < daysFromCivil (y + 1) 1 1 := by
  rw [mkDate_of_regular y m0 d h0 h11]
  exact daysFromCivil_in_year y (m0 + 1) d (by omega) (by omega) hd1 hd2

theorem getDay_bounds (t : Int) : 0 ≤ getDay t ∧ getDay t < 7 := by
  unfold getDay
  omega

theorem nthWeekdayOfMonth_in_year (y m0 w occ : Int) (h0 : 0 ≤ m0)
    (h11 : m0 ≤ 11) (hw0 : 0 ≤ w) (hw6 : w ≤ 6) (ho1 : 1 ≤ occ) (ho4 : occ ≤ 4) :
    daysFromCivil y 1 1 ≤ nthWeekdayOfMonth y m0 w occ ∧
      nthWeekdayOfMonth y m0 w occ < daysFromCivil (y + 1) 1 1 := by
  simp only [nthWeekdayOfMonth]
  have hgd := getDay_bounds (mkDate y m0 1)
  rw [jsMod_eq_emod _ _ (by omega)]
  exact mkDate_in_year y m0 _ h0 h11 (by omega) (by omega)

set_option maxRecDepth 10000 in
/-- Day-of-month of the last day of May, for every year: established by
splitting the day count into era and day-of-era and checking the 400
possible years of an era by evaluation. -/
theorem getDate_may31 (y : Int) : getDate (daysFromCivil y 6 1 - 1) = 31 := by
  have key : ∀ k : Fin 400,
      (doeParts (365 * (k : Int) + (k : Int) / 4 - (k : Int) / 100 + 91)).2.2 = 31 := by
    decide
  have hz : daysFromCivil y 6 1 - 1 =
      y / 400 * 146097 + (365 * (y % 400) + (y % 400) / 4 - (y % 400) / 100 + 91)
        - 719468 := by
    simp only [daysFromCivil]
    norm_num
    omega
  simp only [getDate, civilFromDays]
  have hyoe : 0 ≤ y % 400 ∧ y % 400 < 400 := by omega
  have hdoe : daysFromCivil y 6 1 - 1 + 719468 -
      (daysFromCivil y 6 1 - 1 + 719468) / 146097 * 146097 =
        365 * (y % 400) + (y % 400) / 4 - (y % 400) / 100 + 91 := by
    rw [hz]
    omega
  rw [hdoe]
  have hcast : ((⟨(y % 400).toNat, by omega⟩ : Fin 400) : Int) = y % 400 := by
    simp
    omega
  have := key ⟨(y % 400).toNat, by omega⟩
  rw [hcast] at this
  exact this

theorem lastWeekdayMay_in_year (y w : Int) (hw0 : 0 ≤ w) (hw6 : w ≤ 6) :
    daysFromCivil y 1 1 ≤ lastWeekdayOfMonth y 4 w ∧
      lastWeekdayOfMonth y 4 w < daysFromCivil (y + 1) 1 1 := by
  simp only [lastWeekdayOfMonth]
  have hm : mkDate y (4 + 1) 1 = daysFromCivil y 6 1 := by
    simp only [mkDate]
    norm_num
  rw [hm, getDate_may31 y]
  have hgd := getDay_bounds (daysFromCivil y 6 1 - 1)
  rw [jsMod_eq_emod _ _ (by omega)]
  exact mkDate_in_year y 4 _ (by norm_num) (by norm_num) (by omega) (by omega)

set_option maxHeartbeats 2000000 in
/-- Easter always falls inside its own calendar year, whatever the sign
of the intermediate remainders. -/
theorem easter_in_year (y : Int) :
    daysFromCivil y 1 1 ≤ calculateEasterSunday y ∧
      calculateEasterSunday y < daysFromCivil (y + 1) 1 1 := by
  simp only [calculateEasterSunday]
  apply mkDate_in_year
  · simp only [jsMod]
    split_ifs <;> omega
  · simp only [jsMod]
    split_ifs <;> omega
  · simp only [jsMod]
    split_ifs <;> omega
  · simp only [jsMod]
    split_ifs <;> omega

theorem generatorNames_nodup : (HOLIDAY_GENERATORS.map Prod.fst).Nodup := by
  decide

theorem generators_in_year :
    ∀ g ∈ HOLIDAY_GENERATORS, ∀ y : Int,
      daysFromCivil y 1 1 ≤ evalRule g.2 y ∧
        evalRule g.2 y < daysFromCivil (y + 1) 1 1 := by
  intro g hg y
  simp only [HOLIDAY_GENERATORS, List.mem_cons, List.not_mem_nil, or_false] at hg
  rcases hg with rfl|rfl|rfl|rfl|rfl|rfl|rfl|rfl|rfl|rfl|rfl|rfl|rfl|rfl|rfl|rfl <;>
    simp only [evalRule]
  · exact mkDate_in_year y 0 1 (by norm_num) (by norm_num) (by norm_num) (by norm_num)
  · exact nthWeekdayOfMonth_in_year y 0 1 3 (by norm_num) (by norm_num) (by norm_num)
      (by norm_num) (by norm_num) (by norm_num)
  · exact mkDate_in_year y 1 14 (by norm_num) (by norm_num) (by norm_num) (by norm_num)
  · exact nthWeekdayOfMonth_in_year y 1 1 3 (by norm_num) (by norm_num) (by norm_num)
      (by norm_num) (by norm_num) (by norm_num)
  · exact mkDate_in_year y 2 17 (by norm_num) (by norm_num) (by norm_num) (by norm_num)
  · exact easter_in_year y
  · exact nthWeekdayOfMonth_in_year y 4 0 2 (by norm_num) (by norm_num) (by norm_num)
      (by norm_num) (by norm_num) (by norm_num)
  · exact lastWeekdayMay_in_year y 1 (by norm_num) (by norm_num)
  · exact nthWeekdayOfMonth_in_year y 5 0 3 (by norm_num) (by norm_num) (by norm_num)
      (by norm_num) (by norm_num) (by norm_num)
  · exact mkDate_in_year y 6 4 (by norm_num) (by norm_num) (by norm_num) (by norm_num)
  · exact nthWeekdayOfMonth_in_year y 8 1 1 (by norm_num) (by norm_num) (by norm_num)
      (by norm_num) (by norm_num) (by norm_num)
  · exact mkDate_in_year y 9 31 (by norm_num) (by norm_num) (by norm_num) (by norm_num)
  · exact mkDate_in_year y 10 11 (by norm_num) (by norm_num) (by norm_num) (by norm_num)
  · exact nthWeekdayOfMonth_in_year y 10 4 4 (by norm_num) (by norm_num) (by norm_num)
      (by norm_num) (by norm_num) (by norm_num)
  · exact mkDate_in_year y 11 25 (by norm_num) (by norm_num) (by norm_num) (by norm_num)
  · exact mkDate_in_year y 11 31 (by norm_num) (by norm_num) (by norm_num) (by norm_num)

/-- Distinctness by the (name, date) pair. -/
def distinctNameDate (h1 h2 : Holiday) : Prop :=
  h1.name ≠ h2.name ∨ h1.date ≠ h2.date

theorem jan1_mono (y1 y2 : Int) (h : y1 ≤ y2) :
    daysFromCivil y1 1 1 ≤ daysFromCivil y2 1 1 := by
  simp only [daysFromCivil]
  norm_num
  omega

theorem perYear_pairwise (y : Int) :
    List.Pairwise distinctNameDate
      (HOLIDAY_GENERATORS.map fun g =>
        ({ name := g.1, date := evalRule g.2 y } : Holiday)) := by
  have hn : List.Pairwise (fun a b : String × HRule => a.1 ≠ b.1)
      HOLIDAY_GENERATORS := by
    have h0 := generatorNames_nodup
    rw [List.Nodup, List.pairwise_map] at h0
    exact h0
  rw [List.pairwise_map]
  exact hn.imp fun hne => Or.inl hne

theorem candidates_pairwise (start : Int) (n : Nat) :
    List.Pairwise distinctNameDate
      (((List.range n).map fun i : Nat => start + (i : Int)).flatMap fun year =>
        HOLIDAY_GENERATORS.map fun g =>
          ({ name := g.1, date := evalRule g.2 year } : Holiday)) := by
  induction n with
  | zero => simp
  | succ n ih =>
    rw [List.range_succ, List.map_append, List.flatMap_append, List.pairwise_append]
    refine ⟨ih, ?_, ?_⟩
    · simp only [List.map_cons, List.map_nil, List.flatMap_cons, List.flatMap_nil,
        List.append_nil]
      exact perYear_pairwise _
    · intro a ha b hb
      rw [List.mem_flatMap] at ha
      obtain ⟨yr, hyr, hamem⟩ := ha
      rw [List.mem_map] at hyr
      obtain ⟨i, hi, rfl⟩ := hyr
      rw [List.mem_range] at hi
      rw [List.mem_map] at hamem
      obtain ⟨g, hg, rfl⟩ := hamem
      simp only [List.map_cons, List.map_nil, List.flatMap_cons, List.flatMap_nil,
        List.append_nil, List.mem_map] at hb
      obtain ⟨g2, hg2, rfl⟩ := hb
      right
      have hb1 := generators_in_year g hg (start + (i : Int))
      have hb2 := generators_in_year g2 hg2 (start + (n : Int))
      have hmono : daysFromCivil (start + (i : Int) + 1) 1 1 ≤
          daysFromCivil (start + (n : Int)) 1 1 := by
        apply jan1_mono
        omega
      simp only
      omega

theorem flatMap_filter_comm {α β : Type} (l : List α) (f : α → List β)
    (p : β → Bool) :
    (l.flatMap fun a => (f a).filter p) = (l.flatMap f).filter p := by
  induction l with
  | nil => rfl
  | cons x xs ih => simp [List.flatMap_cons, List.filter_append, ih]

/-- Claim C4: for every pair of dates with `rangeStart ≤ rangeEnd`, the
result of `getHolidaysInRange` is, as a multiset, exactly the evaluations
of every rule at every candidate year (`startYear - 1` through
`endYear + 1`, the content of `candidateYears`) whose date lies within
the inclusive range; it is sorted ascending by date; no two entries share
the same (name, date) pair; and when no candidate lands in the range the
result is the empty sequence. -/
theorem getHolidaysInRange_spec (rangeStart rangeEnd : Int)
    (hle : rangeStart ≤ rangeEnd) :
    (getHolidaysInRange rangeStart rangeEnd).Perm
      (((candidateYears rangeStart rangeEnd).flatMap fun year =>
          HOLIDAY_GENERATORS.map fun g =>
            ({ name := g.1, date := evalRule g.2 year } : Holiday)).filter fun h =>
        decide (rangeStart ≤ h.date) && decide (h.date ≤ rangeEnd)) ∧
    List.Pairwise (fun a b : Holiday => a.date ≤ b.date)
      (getHolidaysInRange rangeStart rangeEnd) ∧
    List.Pairwise distinctNameDate (getHolidaysInRange rangeStart rangeEnd) ∧
    (∀ yr ∈ candidateYears rangeStart rangeEnd,
      getFullYear rangeStart - 1 ≤ yr ∧ yr ≤ getFullYear rangeEnd + 1) ∧
    ((((candidateYears rangeStart rangeEnd).flatMap fun year =>
          HOLIDAY_GENERATORS.map fun g =>
            ({ name := g.1, date := evalRule g.2 year } : Holiday)).filter fun h =>
        decide (rangeStart ≤ h.date) && decide (h.date ≤ rangeEnd)) = [] →
      getHolidaysInRange rangeStart rangeEnd = []) := by
  have hperm : (getHolidaysInRange rangeStart rangeEnd).Perm
      (((candidateYears rangeStart rangeEnd).flatMap fun year =>
          HOLIDAY_GENERATORS.map fun g =>
            ({ name := g.1, date := evalRule g.2 year } : Holiday)).filter fun h =>
        decide (rangeStart ≤ h.date) && decide (h.date ≤ rangeEnd)) := by
    rw [getHolidaysInRange, flatMap_filter_comm]
    exact List.mergeSort_perm _ _
  refine ⟨hperm, ?_, ?_, ?_, ?_⟩
  · have hs := @List.sorted_mergeSort Holiday
      (fun a b : Holiday => decide (a.date ≤ b.date))
      (fun a b c hab hbc => by
        simp only [decide_eq_true_eq] at *
        omega)
      (fun a b => by
        by_cases h : a.date ≤ b.date
        · simp [h]
        · simp [le_of_lt (lt_of_not_le h)])
      ((candidateYears rangeStart rangeEnd).flatMap fun year =>
        (HOLIDAY_GENERATORS.map fun g =>
          ({ name := g.1, date := evalRule g.2 year } : Holiday)).filter fun h =>
            decide (rangeStart ≤ h.date) && decide (h.date ≤ rangeEnd))
    rw [getHolidaysInRange]
    exact hs.imp fun h => by simpa using h
  · have hcand := candidates_pairwise (getFullYear rangeStart - 1)
      ((getFullYear rangeEnd + 1 - (getFullYear rangeStart - 1) + 1).toNat)
    have hfilt : List.Pairwise distinctNameDate
        (((candidateYears rangeStart rangeEnd).flatMap fun year =>
            HOLIDAY_GENERATORS.map fun g =>
              ({ name := g.1, date := evalRule g.2 year } : Holiday)).filter fun h =>
          decide (rangeStart ≤ h.date) && decide (h.date ≤ rangeEnd)) := by
      apply List.Pairwise.filter
      simpa only [candidateYears] using hcand
    exact hfilt.perm hperm.symm fun hxy => hxy.imp Ne.symm Ne.symm
  · intro yr hyr
    simp only [candidateYears, List.mem_map, List.mem_range] at hyr
    obtain ⟨i, hi, rfl⟩ := hyr
    omega
  · intro hnil
    rw [hnil] at hperm
    exact hperm.eq_nil

/-- Witness for `getHolidaysInRange_spec` over the calendar year 2024. -/
theorem getHolidaysInRange_spec_witness :
    (getHolidaysInRange (daysFromCivil 2024 1 1) (daysFromCivil 2024 12 31)).Perm
        (((candidateYears (daysFromCivil 2024 1 1)
              (daysFromCivil 2024 12 31)).flatMap fun year =>
            HOLIDAY_GENERATORS.map fun g =>
              ({ name := g.1, date := evalRule g.2 year } : Holiday)).filter fun h =>
          decide (daysFromCivil 2024 1 1 ≤ h.date) &&
            decide (h.date ≤ daysFromCivil 2024 12 31)) ∧
      List.Pairwise (fun a b : Holiday => a.date ≤ b.date)
        (getHolidaysInRange (daysFromCivil 2024 1 1) (daysFromCivil 2024 12 31)) ∧
      List.Pairwise distinctNameDate
        (getHolidaysInRange (daysFromCivil 2024 1 1) (daysFromCivil 2024 12 31)) ∧
      (∀ yr ∈ candidateYears (daysFromCivil 2024 1 1) (daysFromCivil 2024 12 31),
        getFullYear (daysFromCivil 2024 1 1) - 1 ≤ yr ∧
          yr ≤ getFullYear (daysFromCivil 2024 12 31) + 1) ∧
      ((((candidateYears (daysFromCivil 2024 1 1)
              (daysFromCivil 2024 12 31)).flatMap fun year =>
            HOLIDAY_GENERATORS.map fun g =>
              ({ name := g.1, date := evalRule g.2 year } : Holiday)).filter fun h =>
          decide (daysFromCivil 2024 1 1 ≤ h.date) &&
            decide (h.date ≤ daysFromCivil 2024 12 31)) = [] →
        getHolidaysInRange (daysFromCivil 2024 1 1) (daysFromCivil 2024 12 31) = []) :=
  getHolidaysInRange_spec (daysFromCivil 2024 1 1) (daysFromCivil 2024 12 31)
    (by decide)

end GPP
